import Mathlib

/-!
Verification of the `MultiColumnJoin` operator and related code of the QLever
SPARQL engine (src/engine/MultiColumnJoin.cpp, src/engine/TextLimit.h).

Shallow embedding conventions:
* `Id` is the engine's 64-bit tagged value, modelled by its observable join
  behaviour: it is either UNDEF or a defined value (abstracted to a natural
  number).  UNDEF sorts strictly before every defined value.
* An `IdTable` is modelled row-major as a `List Row` together with an explicit
  column count where needed (`IdTable::numColumns`).
* C++ `size_t`/`uint64_t` arithmetic is modelled on `Nat`/`Int` with explicit
  `% 2 ^ 64` where wrap-around can matter; `float`/`double` values are
  modelled as exact rationals (`ℚ`), with float-to-integer casts modelled by
  `Rat.floor` (truncation of the non-negative values that occur here).
-/

namespace QLever

/-- The engine's `Id`: a tagged 64-bit value that is either UNDEF or some
defined value.  For join semantics only UNDEF-ness and the order of defined
values matter, so defined values are abstracted to `Nat`. -/
inductive Id where
  | undef : Id
  | val : Nat → Id
deriving DecidableEq, Repr

/-- Translation of `Id::isUndefined`. -/
def Id.isUndefined : Id → Bool
  | .undef => true
  | .val _ => false

/-- The order on `Id`s used by the sorted join columns: UNDEF sorts strictly
before any defined value (design note in spec §9). -/
def Id.ltB : Id → Id → Bool
  | .undef, .undef => false
  | .undef, .val _ => true
  | .val _, .undef => false
  | .val m, .val n => decide (m < n)

/-- A row of an `IdTable`. -/
abbrev Row := List Id

/-- Translation of `ql::ranges::lexicographical_compare` on rows (a shorter row that is a
prefix of a longer one compares less). -/
def lexLt : Row → Row → Bool
  | [], [] => false
  | [], _ :: _ => true
  | _ :: _, [] => false
  | a :: as, b :: bs =>
    if Id.ltB a b then true else if Id.ltB b a then false else lexLt as bs

theorem Id.ltB_irrefl (a : Id) : Id.ltB a a = false := by
  cases a <;> simp [Id.ltB]

theorem Id.ltB_trans {a b c : Id} (h1 : Id.ltB a b = true)
    (h2 : Id.ltB b c = true) : Id.ltB a c = true := by
  cases a <;> cases b <;> cases c <;> simp_all [Id.ltB] ; omega

theorem Id.eq_of_not_ltB {a b : Id} (h1 : Id.ltB a b = false)
    (h2 : Id.ltB b a = false) : a = b := by
  cases a <;> cases b <;> simp_all [Id.ltB] ; omega

/-- Unfolding lemma: on `Id`s, "neither less" is equality, so the strict weak
order used by `lexicographical_compare` is the lexicographic strict order. -/
theorem lexLt_cons (a b : Id) (as bs : Row) :
    lexLt (a :: as) (b :: bs) =
      (Id.ltB a b || (a = b && lexLt as bs)) := by
  by_cases hab : Id.ltB a b = true
  · simp [lexLt, hab]
  · have hab' : Id.ltB a b = false := Bool.eq_false_iff.mpr hab
    by_cases hba : Id.ltB b a = true
    · have hne : a ≠ b := by
        rintro rfl; simp [Id.ltB_irrefl] at hba
      simp [lexLt, hab', hba, hne]
    · have hba' : Id.ltB b a = false := Bool.eq_false_iff.mpr hba
      have heq : a = b := Id.eq_of_not_ltB hab' hba'
      subst heq
      simp [lexLt, hab']

theorem lexLt_irrefl (a : Row) : lexLt a a = false := by
  induction a with
  | nil => rfl
  | cons x xs ih => simp [lexLt_cons, Id.ltB_irrefl, ih]

theorem lexLt_trans : ∀ {a b c : Row}, lexLt a b = true → lexLt b c = true →
    lexLt a c = true
  | [], [], _, h1, _ => by simp [lexLt] at h1
  | [], _ :: _, [], _, h2 => by simp [lexLt] at h2
  | [], _ :: _, _ :: _, _, _ => by simp [lexLt]
  | _ :: _, [], _, h1, _ => by simp [lexLt] at h1
  | _ :: _, _ :: _, [], _, h2 => by simp [lexLt] at h2
  | a :: as, b :: bs, c :: cs, h1, h2 => by
    rw [lexLt_cons] at h1 h2 ⊢
    simp only [Bool.or_eq_true, Bool.and_eq_true, decide_eq_true_eq] at h1 h2 ⊢
    rcases h1 with h1 | ⟨rfl, h1⟩
    · rcases h2 with h2 | ⟨rfl, h2⟩
      · exact Or.inl (Id.ltB_trans h1 h2)
      · exact Or.inl h1
    · rcases h2 with h2 | ⟨rfl, h2⟩
      · exact Or.inl h2
      · exact Or.inr ⟨rfl, lexLt_trans h1 h2⟩

theorem lexLt_total_eq : ∀ {a b : Row}, lexLt a b = false →
    lexLt b a = true ∨ a = b
  | [], [], _ => Or.inr rfl
  | [], _ :: _, h => by simp [lexLt] at h
  | _ :: _, [], _ => by simp [lexLt]
  | a :: as, b :: bs, h => by
    rw [lexLt_cons] at h
    rw [lexLt_cons]
    simp only [Bool.or_eq_false_iff, Bool.and_eq_false_iff] at h
    obtain ⟨hab, h2⟩ := h
    by_cases hba : Id.ltB b a = true
    · simp [hba]
    · have hba' : Id.ltB b a = false := Bool.eq_false_iff.mpr hba
      have heq : a = b := Id.eq_of_not_ltB hab hba'
      subst heq
      rcases h2 with h2 | h2
      · simp at h2
      · rcases lexLt_total_eq h2 with h3 | h3
        · simp [h3]
        · exact Or.inr (by rw [h3])

theorem lexLt_asymm {a b : Row} (h : lexLt a b = true) : lexLt b a = false := by
  by_contra hc
  have hba : lexLt b a = true := Bool.not_eq_false _ |>.mp hc
  have := lexLt_trans h hba
  simp [lexLt_irrefl] at this

/-- Non-strict comparison `¬(b < a)` is transitive: the (total pre)order of the sorted columns. -/
theorem lexLe_trans {a b c : Row} (h1 : lexLt b a = false)
    (h2 : lexLt c b = false) : lexLt c a = false := by
  by_contra hc
  have hca : lexLt c a = true := Bool.not_eq_false _ |>.mp hc
  rcases lexLt_total_eq h2 with hbc | hbc
  · have := lexLt_trans hbc hca
    simp [this] at h1
  · subst hbc; simp [hca] at h1

theorem lexLt_of_lt_of_nlt {a b c : Row} (h1 : lexLt a b = true)
    (h2 : lexLt c b = false) : lexLt a c = true := by
  rcases lexLt_total_eq h2 with hbc | hbc
  · exact lexLt_trans h1 hbc
  · subst hbc; exact h1

theorem lexLt_of_nlt_of_lt {a b c : Row} (h1 : lexLt a b = false)
    (h2 : lexLt a c = true) : lexLt b c = true := by
  rcases lexLt_total_eq h1 with hba | hba
  · exact lexLt_trans hba h2
  · subst hba; exact h2

/-! ## IdTable access

An `IdTable` is modelled row-major as a `List Row`; the column count is passed
explicitly where the C++ code reads `numColumns()`. -/

/-- Translation of `IdTable::getColumn(c)`: the sequence of entries of column `c`. -/
def getColumn (t : List Row) (c : Nat) : List Id :=
  t.map (fun row => row.getD c Id.undef)

/-- Reading the cells of a row at a list of column indices (the row view of
`IdTable::asColumnSubsetView`). -/
def readCols (cols : List Nat) (row : Row) : Row :=
  cols.map (fun c => row.getD c Id.undef)

/-- The row of join-column cells of a left row (the row view of
`left.asColumnSubsetView(joinColumnData.jcsLeft())`). -/
def joinKeyL (jcs : List (Nat × Nat)) (row : Row) : Row :=
  jcs.map (fun jc => row.getD jc.1 Id.undef)

/-- The row of join-column cells of a right row (the row view of
`right.asColumnSubsetView(joinColumnData.jcsRight())`). -/
def joinKeyR (jcs : List (Nat × Nat)) (row : Row) : Row :=
  jcs.map (fun jc => row.getD jc.2 Id.undef)

/-- MultiColumnJoin.cpp:244-248.  `isCheap` is true iff no join column of
either side contains an UNDEF value:
`none_of(joinColumns, any_of(right col, isUndefined) || any_of(left col, isUndefined))`. -/
def isCheap (left right : List Row) (jcs : List (Nat × Nat)) : Bool :=
  !(jcs.any (fun jc =>
      (getColumn right jc.2).any Id.isUndefined ||
      (getColumn left jc.1).any Id.isUndefined))

/-- UNDEF-aware cell match: UNDEF matches every value, including UNDEF
(spec §3, §4.2). -/
def Id.matchesB : Id → Id → Bool
  | .undef, _ => true
  | _, .undef => true
  | .val m, .val n => decide (m = n)

/-- UNDEF-aware key match of two join-key rows. -/
def keysMatch : Row → Row → Bool
  | [], [] => true
  | a :: as, b :: bs => Id.matchesB a b && keysMatch as bs
  | _, _ => false

/-- The value written to a join column of an output row: the left value if it
is defined, otherwise the right value (spec §8, scenario 2: the UNDEF row's
output cell holds the partner's defined value). -/
def mergeIds (a b : Id) : Id :=
  if a.isUndefined then b else a

/-- The join-key part of a combined output row, one merged cell per join
column, in join order. -/
def mergedKey (jcs : List (Nat × Nat)) (l r : Row) : Row :=
  jcs.map (fun jc => mergeIds (l.getD jc.1 Id.undef) (r.getD jc.2 Id.undef))

/-- The non-join columns of a table of width `w`, in ascending order. -/
def nonJoinCols (w : Nat) (cols : List Nat) : List Nat :=
  (List.range w).filter (fun c => !(cols.contains c))

/-- Modelled from the spec: `AddCombinedRowToIdTable`
(engine/AddCombinedRowToTable.h, not in this repository) combines a matching
left/right row pair into one output row whose columns are first the join
columns (in join order, with UNDEF join cells filled from the partner), then
the remaining left columns, then the remaining right columns (spec §4.2). -/
def combinedRow (jcs : List (Nat × Nat)) (wl wr : Nat) (l r : Row) : Row :=
  mergedKey jcs l r ++
    ((nonJoinCols wl (jcs.map (fun a => a.1))).map (fun c => l.getD c Id.undef) ++
      (nonJoinCols wr (jcs.map (fun a => a.2))).map (fun c => r.getD c Id.undef))

/-- First index `i` with `jcs[i].1 = c`, if any. -/
def jcIndexL : List (Nat × Nat) → Nat → Option Nat
  | [], _ => none
  | jc :: rest, c => if jc.1 = c then some 0 else (jcIndexL rest c).map (· + 1)

/-- First pair `jc ∈ jcs` with `jc.1 = c`, if any. -/
def jcLookupL : List (Nat × Nat) → Nat → Option (Nat × Nat)
  | [], _ => none
  | jc :: rest, c => if jc.1 = c then some jc else jcLookupL rest c

/-- Index of the first occurrence of `c` in a list of column indices. -/
def posIn : List Nat → Nat → Nat
  | [], _ => 0
  | x :: rest, c => if x = c then 0 else posIn rest c + 1

/-- Where a left column `c` lives in the kernel's output table: join columns
sit at their join index, the other left columns follow the `k` join columns
in ascending order. -/
def leftColIndex (jcs : List (Nat × Nat)) (wl : Nat) (c : Nat) : Nat :=
  match jcIndexL jcs c with
  | some i => i
  | none => jcs.length + posIn (nonJoinCols wl (jcs.map (fun a => a.1))) c

/-- Modelled from the spec: `JoinColumnMapping::permutationResult()`
(util/JoinAlgorithms/JoinColumnMapping.h, not in this repository).  The table
built by the join kernel has columns `[join columns, other left columns,
other right columns]`; this permutation restores the layout expected by the
parent operator: all left columns in their original order, followed by the
non-join right columns (spec §4.2). -/
def permutationResult (jcs : List (Nat × Nat)) (wl wr : Nat) : List Nat :=
  (List.range wl).map (leftColIndex jcs wl) ++
    (List.range (wr - jcs.length)).map (fun j => wl + j)

/-- Translation of `IdTable::setColumnSubset(perm)`: column `j` of the new table is column
`perm[j]` of the old one. -/
def applyPerm (perm : List Nat) (row : Row) : Row :=
  perm.map (fun i => row.getD i Id.undef)

/-- Spec §4.2 step 3: the number of emissions whose combined key compares
less than its predecessor's. -/
def countOutOfOrder : List Row → Nat
  | a :: b :: rest =>
    (if lexLt b a then 1 else 0) + countOutOfOrder (b :: rest)
  | _ => 0

/-- Modelled from the spec: `Engine::sort(table, cols)` (engine/Engine.h, not
in this repository) sorts the table lexicographically by the given column
list (§4.4). -/
def engineSort (cols : List Nat) (rows : List Row) : List Row :=
  rows.mergeSort (fun a b => !lexLt (readCols cols b) (readCols cols a))

/-- Keys are equivalent for the strict weak order `lexLt`
(`!(a < b) && !(b < a)`), the equality test of the two-pointer merge. -/
def sameKey (a b : Row) : Bool :=
  !lexLt a b && !lexLt b a

/-- Modelled from the spec: `ad_utility::zipperJoinWithUndef` with the no-op
UNDEF probes (util/JoinAlgorithms/JoinAlgorithms.h, not in this repository)
is the standard two-pointer merge join on inputs sorted by their keys; equal
keys on both sides produce a Cartesian product (spec §4.2 step 1).  `kL`/`kR`
extract the join keys of a row. -/
def zipperJoinCheap (kL kR : Row → Row) : List Row → List Row → List (Row × Row)
  | [], _ => []
  | _ :: _, [] => []
  | l :: ls, r :: rs =>
    if lexLt (kL l) (kR r) then zipperJoinCheap kL kR ls (r :: rs)
    else if lexLt (kR r) (kL l) then zipperJoinCheap kL kR (l :: ls) rs
    else
      ((r :: rs).takeWhile (fun r2 => sameKey (kL l) (kR r2))).map (fun r2 => (l, r2))
        ++ zipperJoinCheap kL kR ls (r :: rs)
termination_by L R => L.length + R.length
decreasing_by all_goals simp_arith

/-- Nested-loop enumeration of all row pairs satisfying a predicate, in input
order. -/
def nestedPairs (p : Row → Row → Bool) : List Row → List Row → List (Row × Row)
  | [], _ => []
  | l :: ls, R => (R.filter (fun r => p l r)).map (fun r => (l, r)) ++ nestedPairs p ls R

/-- Modelled from the spec: `ad_utility::zipperJoinWithUndef` with the
`findSmallerUndefRanges` probes (util/JoinAlgorithms/JoinAlgorithms.h, not in
this repository).  The probes enumerate, for each row, the rows of the other
side that compare equal once UNDEFs are filled in, so the kernel emits
exactly the pairs of rows whose join keys match under the UNDEF wildcard
semantics (spec §4.2 step 2). -/
def zipperJoinWithUndefGeneral (kL kR : Row → Row) (L R : List Row) :
    List (Row × Row) :=
  nestedPairs (fun l r => keysMatch (kL l) (kR r)) L R

/-- MultiColumnJoin.cpp:252-266: the kernel invocation.  The cheap case runs
the two-pointer merge with `ad_utility::noop` probes and never emits out of
order; otherwise the UNDEF-aware kernel runs. -/
def joinKernelPairs (cheap : Bool) (kL kR : Row → Row) (L R : List Row) :
    List (Row × Row) :=
  if cheap then zipperJoinCheap kL kR L R else zipperJoinWithUndefGeneral kL kR L R

/-- Translation of `MultiColumnJoin::computeMultiColumnJoin` (MultiColumnJoin.cpp:208-287).
`wl`/`wr` are `left.numColumns()`/`right.numColumns()`; `result` is the table
the caller passes by pointer (always freshly constructed and empty, see
`computeResult`), which the row adder takes over. -/
def computeMultiColumnJoin (left right : List Row) (jcs : List (Nat × Nat))
    (wl wr : Nat) (result : List Row) : List Row :=
  -- check for trivial cases (lines 212-215)
  if left.isEmpty || right.isEmpty then result
  else
    let k := jcs.length
    let cheap := isCheap left right jcs
    let pairs := joinKernelPairs cheap (joinKeyL jcs) (joinKeyR jcs) left right
    -- `AddCombinedRowToIdTable` appends one combined row per emitted pair.
    let emitted := pairs.map (fun p => combinedRow jcs wl wr p.1 p.2)
    -- The cheap kernel always returns 0 (spec §4.2: nonzero only with UNDEF).
    let numOutOfOrder :=
      if cheap then 0
      else countOutOfOrder (pairs.map (fun p => mergedKey jcs p.1 p.2))
    let rows := result ++ emitted
    -- lines 273-280: sort by the join columns if rows were emitted out of order
    let rows := if numOutOfOrder > 0 then engineSort (List.range k) rows else rows
    -- line 285: permute the columns back to the expected order
    rows.map (applyPerm (permutationResult jcs wl wr))

/-- Translation of `MultiColumnJoin::resultSortedOn` (MultiColumnJoin.cpp:109-116): the
left-side join columns, in join order. -/
def resultSortedOn (jcs : List (Nat × Nat)) : List Nat :=
  jcs.map (fun a => a.1)

/-! ## The relational natural join (specification side)

These definitions follow the spec's words, for comparison with the code
model above: the natural join of `L` and `R` on the join columns contains,
for every pair of rows whose join keys match (UNDEF matching every value),
one output row holding the left row (join cells merged with the partner's
value) followed by the right row's non-join columns (spec §4.2, §8). -/

/-- One output row of the natural join: the left row with every join cell
merged, then the right row's non-join columns. -/
def naturalJoinRow (jcs : List (Nat × Nat)) (l r : Row) : Row :=
  (List.range l.length).map (fun c =>
    match jcLookupL jcs c with
    | some jc => mergeIds (l.getD c Id.undef) (r.getD jc.2 Id.undef)
    | none => l.getD c Id.undef) ++
  ((List.range r.length).filter
      (fun c => !((jcs.map (fun a => a.2)).contains c))).map
    (fun c => r.getD c Id.undef)

/-- The relational natural join with UNDEF wildcard semantics, as a list of
rows in nested-loop order (the claim is about its multiset of rows). -/
def naturalJoin (jcs : List (Nat × Nat)) : List Row → List Row → List Row
  | [], _ => []
  | l :: ls, R =>
    (R.filter (fun r => keysMatch (joinKeyL jcs l) (joinKeyR jcs r))).map
        (fun r => naturalJoinRow jcs l r) ++
      naturalJoin jcs ls R

/-! ## List index helpers -/

theorem getD_append_left {α : Type} (a b : List α) (d : α) :
    ∀ {i : Nat}, i < a.length → (a ++ b).getD i d = a.getD i d := by
  induction a with
  | nil => intro i h; simp at h
  | cons x xs ih =>
    intro i h
    cases i with
    | zero => simp
    | succ j =>
      simp only [List.cons_append, List.getD_cons_succ]
      exact ih (by simpa using h)

theorem getD_append_right {α : Type} (a b : List α) (d : α) (i : Nat) :
    (a ++ b).getD (a.length + i) d = b.getD i d := by
  induction a with
  | nil => simp
  | cons x xs ih => simpa [Nat.succ_add] using ih

theorem getD_map_lt {α β : Type} (f : α → β) (l : List α) (d : β) (d2 : α) :
    ∀ {i : Nat}, i < l.length → (l.map f).getD i d = f (l.getD i d2) := by
  induction l with
  | nil => intro i h; simp at h
  | cons x xs ih =>
    intro i h
    cases i with
    | zero => simp
    | succ j => simpa using ih (by simpa using h)

theorem getD_range (n : Nat) (d : Nat) : ∀ {i : Nat}, i < n →
    (List.range n).getD i d = i := by
  induction n with
  | zero => intro i h; omega
  | succ m ih =>
    intro i h
    rw [List.range_succ]
    rcases Nat.lt_or_ge i m with h2 | h2
    · rw [getD_append_left _ _ _ (by simpa using h2)]
      exact ih h2
    · have h3 : i = m := by omega
      rw [h3]
      have h4 := getD_append_right (List.range m) [m] d 0
      rw [List.length_range, Nat.add_zero] at h4
      rw [h4]
      rfl

theorem getD_range_map {α : Type} (l : List α) (d : α) :
    (List.range l.length).map (fun i => l.getD i d) = l := by
  induction l with
  | nil => simp
  | cons x xs ih =>
    rw [List.length_cons, List.range_succ_eq_map, List.map_cons, List.map_map]
    have h1 : (List.range xs.length).map ((fun i => (x :: xs).getD i d) ∘ Nat.succ)
        = (List.range xs.length).map (fun i => xs.getD i d) := by
      apply List.map_congr_left
      intro a _
      simp
    rw [h1, ih]
    simp

theorem getD_eq_getElem {α : Type} (l : List α) (d : α) {i : Nat}
    (h : i < l.length) : l.getD i d = l[i] := by
  simp [List.getD_eq_getElem?_getD, List.getElem?_eq_getElem h]

/-! ## `posIn`, `jcIndexL`, `jcLookupL` -/

theorem posIn_lt {c : Nat} : ∀ {xs : List Nat}, c ∈ xs → posIn xs c < xs.length := by
  intro xs
  induction xs with
  | nil => intro h; simp at h
  | cons x rest ih =>
    intro h
    by_cases hx : x = c
    · simp [posIn, hx]
    · rcases List.mem_cons.mp h with h2 | h2
      · exact absurd h2.symm hx
      · simp only [posIn, hx, if_false, List.length_cons]
        exact Nat.succ_lt_succ (ih h2)

theorem getD_posIn {c d : Nat} : ∀ {xs : List Nat}, c ∈ xs →
    xs.getD (posIn xs c) d = c := by
  intro xs
  induction xs with
  | nil => intro h; simp at h
  | cons x rest ih =>
    intro h
    by_cases hx : x = c
    · simp [posIn, hx]
    · rcases List.mem_cons.mp h with h2 | h2
      · exact absurd h2.symm hx
      · simp only [posIn, hx, if_false, List.getD_cons_succ]
        exact ih h2

theorem jcIndexL_some_spec {c : Nat} :
    ∀ {jcs : List (Nat × Nat)} {i : Nat}, jcIndexL jcs c = some i →
      ∃ jc, jcs.getD i (0, 0) = jc ∧ i < jcs.length ∧ jc.1 = c ∧
        jcLookupL jcs c = some jc := by
  intro jcs
  induction jcs with
  | nil => intro i h; simp [jcIndexL] at h
  | cons jc0 rest ih =>
    intro i h
    by_cases hx : jc0.1 = c
    · simp [jcIndexL, hx] at h
      subst h
      exact ⟨jc0, by simp, by simp, hx, by simp [jcLookupL, hx]⟩
    · simp only [jcIndexL, hx, if_false, Option.map_eq_some'] at h
      obtain ⟨j, hj, rfl⟩ := h
      obtain ⟨jc, hget, hlt, hfst, hlook⟩ := ih hj
      exact ⟨jc, by simpa using hget, by simpa using Nat.succ_lt_succ hlt, hfst,
        by simpa [jcLookupL, hx] using hlook⟩

theorem jcIndexL_none_spec {c : Nat} :
    ∀ {jcs : List (Nat × Nat)}, jcIndexL jcs c = none →
      (∀ jc ∈ jcs, jc.1 ≠ c) ∧ jcLookupL jcs c = none := by
  intro jcs
  induction jcs with
  | nil => intro _; exact ⟨by simp, rfl⟩
  | cons jc0 rest ih =>
    intro h
    by_cases hx : jc0.1 = c
    · simp [jcIndexL, hx] at h
    · simp only [jcIndexL, hx, if_false, Option.map_eq_none'] at h
      obtain ⟨hall, hlook⟩ := ih h
      refine ⟨?_, by simpa [jcLookupL, hx] using hlook⟩
      intro jc hjc
      rcases List.mem_cons.mp hjc with rfl | hjc2
      · exact hx
      · exact hall jc hjc2

theorem jcIndexL_self_of_nodup :
    ∀ {jcs : List (Nat × Nat)}, (jcs.map (fun a => a.1)).Nodup →
      ∀ {i : Nat} (h : i < jcs.length), jcIndexL jcs (jcs[i].1) = some i := by
  intro jcs
  induction jcs with
  | nil => intro _ i h; simp at h
  | cons jc0 rest ih =>
    intro hnd i h
    simp only [List.map_cons, List.nodup_cons] at hnd
    cases i with
    | zero => simp [jcIndexL]
    | succ j =>
      have hj : j < rest.length := by simpa using h
      have hne : jc0.1 ≠ rest[j].1 := by
        intro heq
        exact hnd.1 (heq ▸ List.mem_map_of_mem (fun a => a.1) (rest.getElem_mem hj))
      simp only [List.getElem_cons_succ, jcIndexL, hne, if_false]
      rw [ih hnd.2 hj]
      rfl

/-! ## `nonJoinCols` -/

theorem contains_iff {l : List Nat} {a : Nat} : l.contains a = true ↔ a ∈ l :=
  List.elem_iff

theorem mem_nonJoinCols {w c : Nat} {cols : List Nat} :
    c ∈ nonJoinCols w cols ↔ c < w ∧ c ∉ cols := by
  simp [nonJoinCols, List.mem_filter, List.mem_range]

theorem nonJoinCols_nodup (w : Nat) (cols : List Nat) :
    (nonJoinCols w cols).Nodup :=
  (List.nodup_range w).filter _

theorem length_nonJoinCols (w : Nat) :
    ∀ {cols : List Nat}, cols.Nodup → (∀ c ∈ cols, c < w) →
      (nonJoinCols w cols).length + cols.length = w := by
  induction w with
  | zero =>
    intro cols hnd hb
    have : cols = [] := by
      cases cols with
      | nil => rfl
      | cons x xs => exact absurd (hb x (by simp)) (by omega)
    subst this
    simp [nonJoinCols]
  | succ m ih =>
    intro cols hnd hb
    rw [nonJoinCols, List.range_succ, List.filter_append, List.length_append]
    by_cases hm : m ∈ cols
    · have hcons : (List.filter (fun c => !cols.contains c) [m]).length = 0 := by
        simp [hm]
      have hfl : (List.range m).filter (fun c => !cols.contains c) =
          (List.range m).filter (fun c => !((cols.erase m).contains c)) := by
        apply List.filter_congr
        intro x hx
        have hxm : x ≠ m := by
          have := List.mem_range.mp hx; omega
        simp [List.mem_erase_of_ne hxm]
      have herased := ih (hnd.erase m) (fun c hc => by
        have hcm : c ≠ m := ((List.Nodup.mem_erase_iff hnd).mp hc).1
        have := hb c (List.mem_of_mem_erase hc)
        omega)
      have hlen : (cols.erase m).length = cols.length - 1 :=
        List.length_erase_of_mem hm
      have hpos : 0 < cols.length := List.length_pos_of_mem hm
      rw [hcons, hfl]
      rw [nonJoinCols] at herased
      omega
    · have hcons : (List.filter (fun c => !cols.contains c) [m]).length = 1 := by
        simp [hm]
      have hnext := ih hnd (fun c hc => by
        have hne : c ≠ m := fun he => hm (he ▸ hc)
        have := hb c hc
        omega)
      rw [hcons]
      rw [nonJoinCols] at hnext
      omega

/-! ## `nestedPairs` and the two-pointer merge -/

theorem nestedPairs_mem {p : Row → Row → Bool} :
    ∀ {L R : List Row} {q : Row × Row}, q ∈ nestedPairs p L R →
      q.1 ∈ L ∧ q.2 ∈ R := by
  intro L
  induction L with
  | nil => intro R q h; simp [nestedPairs] at h
  | cons l ls ih =>
    intro R q h
    rw [nestedPairs] at h
    rcases List.mem_append.mp h with h2 | h2
    · obtain ⟨r, hr, rfl⟩ := List.mem_map.mp h2
      exact ⟨by simp, (List.mem_filter.mp hr).1⟩
    · obtain ⟨h3, h4⟩ := ih h2
      exact ⟨List.mem_cons_of_mem _ h3, h4⟩

theorem nestedPairs_nil_right {p : Row → Row → Bool} :
    ∀ (L : List Row), nestedPairs p L [] = [] := by
  intro L
  induction L with
  | nil => rfl
  | cons l ls ih => rw [nestedPairs]; simp [ih]

theorem nestedPairs_skip_right {p : Row → Row → Bool} {r : Row} {rs : List Row} :
    ∀ {L : List Row}, (∀ l ∈ L, p l r = false) →
      nestedPairs p L (r :: rs) = nestedPairs p L rs := by
  intro L
  induction L with
  | nil => intro _; rfl
  | cons l ls ih =>
    intro h
    rw [nestedPairs, nestedPairs, List.filter_cons]
    rw [h l (by simp)]
    simp only [Bool.false_eq_true, if_false]
    rw [ih (fun l2 hl2 => h l2 (List.mem_cons_of_mem _ hl2))]

theorem nestedPairs_congr {p q : Row → Row → Bool} :
    ∀ {L R : List Row}, (∀ l ∈ L, ∀ r ∈ R, p l r = q l r) →
      nestedPairs p L R = nestedPairs q L R := by
  intro L
  induction L with
  | nil => intro R _; rfl
  | cons l ls ih =>
    intro R h
    rw [nestedPairs, nestedPairs]
    rw [List.filter_congr (fun r hr => h l (by simp) r hr)]
    rw [ih (fun l2 hl2 r hr => h l2 (List.mem_cons_of_mem _ hl2) r hr)]

theorem naturalJoin_eq_map (jcs : List (Nat × Nat)) :
    ∀ (L R : List Row), naturalJoin jcs L R =
      (nestedPairs (fun l r => keysMatch (joinKeyL jcs l) (joinKeyR jcs r)) L R).map
        (fun q => naturalJoinRow jcs q.1 q.2) := by
  intro L
  induction L with
  | nil => intro R; rfl
  | cons l ls ih =>
    intro R
    rw [naturalJoin, nestedPairs, List.map_append, List.map_map, ih]
    rfl

theorem sameKey_eq_decide (a b : Row) : sameKey a b = decide (a = b) := by
  by_cases he : a = b
  · subst he
    simp [sameKey, lexLt_irrefl]
  · rw [decide_eq_false he]
    rw [sameKey]
    by_cases h1 : lexLt a b = true
    · simp [h1]
    · have h1' : lexLt a b = false := Bool.eq_false_iff.mpr h1
      rcases lexLt_total_eq h1' with h2 | h2
      · simp [h1', h2]
      · exact absurd h2 he

theorem sameKey_false_of_lt {a b : Row} (h : lexLt a b = true) :
    sameKey a b = false := by
  simp [sameKey, h]

theorem sameKey_false_of_gt {a b : Row} (h : lexLt b a = true) :
    sameKey a b = false := by
  simp [sameKey, h]

theorem sameKey_nlt_left {a b : Row} (h : sameKey a b = true) :
    lexLt a b = false := by
  simp only [sameKey, Bool.and_eq_true, Bool.not_eq_true'] at h
  exact h.1

theorem sameKey_nlt_right {a b : Row} (h : sameKey a b = true) :
    lexLt b a = false := by
  simp only [sameKey, Bool.and_eq_true, Bool.not_eq_true'] at h
  exact h.2

/-- On a list sorted by `kR` whose elements are all `≥ K`, filtering for the
`K`-equivalence class is the same as taking the leading run. -/
theorem filter_eq_takeWhile_of_sorted (kR : Row → Row) (K : Row) :
    ∀ {xs : List Row}, xs.Pairwise (fun a b => lexLt (kR b) (kR a) = false) →
      (∀ x ∈ xs, lexLt (kR x) K = false) →
      xs.filter (fun x => sameKey K (kR x)) =
        xs.takeWhile (fun x => sameKey K (kR x)) := by
  intro xs
  induction xs with
  | nil => intro _ _; rfl
  | cons x rest ih =>
    intro hs hge
    rw [List.filter_cons, List.takeWhile_cons]
    by_cases hx : sameKey K (kR x) = true
    · rw [hx]
      simp only [if_true]
      rw [ih (List.pairwise_cons.mp hs).2 ?_]
      intro y hy
      have h1 : lexLt (kR y) (kR x) = false := (List.pairwise_cons.mp hs).1 y hy
      exact lexLe_trans (sameKey_nlt_right hx) h1
    · have hx' : sameKey K (kR x) = false := Bool.eq_false_iff.mpr hx
      rw [hx']
      simp only [Bool.false_eq_true, if_false]
      rw [List.filter_eq_nil_iff.mpr ?_]
      intro y hy
      have hKx : lexLt K (kR x) = true := by
        have hxK : lexLt (kR x) K = false := hge x (by simp)
        rw [sameKey] at hx'
        simp only [hxK, Bool.not_false, Bool.and_true, Bool.not_eq_false'] at hx'
        exact hx'
      have h1 : lexLt (kR y) (kR x) = false := (List.pairwise_cons.mp hs).1 y hy
      have hKy : lexLt K (kR y) = true := lexLt_of_lt_of_nlt hKx h1
      simp [sameKey_false_of_lt hKy]

/-- The two-pointer merge of sorted inputs enumerates exactly the matching
pairs of the nested loop, in the same order. -/
theorem zipperJoinCheap_eq_nested (kL kR : Row → Row) :
    ∀ (L R : List Row),
      L.Pairwise (fun a b => lexLt (kL b) (kL a) = false) →
      R.Pairwise (fun a b => lexLt (kR b) (kR a) = false) →
      zipperJoinCheap kL kR L R =
        nestedPairs (fun l r => sameKey (kL l) (kR r)) L R := by
  intro L R
  induction L, R using zipperJoinCheap.induct kL kR with
  | case1 R =>
    intro _ _
    rw [zipperJoinCheap]
    rfl
  | case2 l ls =>
    intro _ _
    rw [zipperJoinCheap, nestedPairs_nil_right]
  | case3 l ls r rs hlt ih =>
    intro hL hR
    rw [zipperJoinCheap, if_pos hlt, nestedPairs]
    rw [ih (List.pairwise_cons.mp hL).2 hR]
    have hfil : (r :: rs).filter (fun r2 => sameKey (kL l) (kR r2)) = [] := by
      apply List.filter_eq_nil_iff.mpr
      intro r2 hr2
      rcases List.mem_cons.mp hr2 with rfl | hr3
      · simp [sameKey_false_of_lt hlt]
      · have h1 : lexLt (kR r2) (kR r) = false := (List.pairwise_cons.mp hR).1 r2 hr3
        simp [sameKey_false_of_lt (lexLt_of_lt_of_nlt hlt h1)]
    rw [hfil]
    rfl
  | case4 l ls r rs hnlt hlt ih =>
    intro hL hR
    rw [zipperJoinCheap, if_neg hnlt, if_pos hlt]
    rw [ih hL (List.pairwise_cons.mp hR).2]
    apply Eq.symm
    apply nestedPairs_skip_right
    intro l2 hl2
    rcases List.mem_cons.mp hl2 with rfl | hl3
    · exact sameKey_false_of_gt hlt
    · have h1 : lexLt (kL l2) (kL l) = false := (List.pairwise_cons.mp hL).1 l2 hl3
      exact sameKey_false_of_gt (lexLt_of_lt_of_nlt hlt h1)
  | case5 l ls r rs hnlt hngt ih =>
    intro hL hR
    rw [zipperJoinCheap, if_neg hnlt, if_neg hngt, nestedPairs]
    rw [ih (List.pairwise_cons.mp hL).2 hR]
    have htw : (r :: rs).filter (fun r2 => sameKey (kL l) (kR r2)) =
        (r :: rs).takeWhile (fun r2 => sameKey (kL l) (kR r2)) := by
      apply filter_eq_takeWhile_of_sorted kR (kL l) hR
      intro x hx
      rcases List.mem_cons.mp hx with rfl | hx2
      · exact Bool.eq_false_iff.mpr (fun hc => hngt hc)
      · have h1 : lexLt (kR x) (kR r) = false := (List.pairwise_cons.mp hR).1 x hx2
        exact lexLe_trans (Bool.eq_false_iff.mpr (fun hc => hngt hc)) h1
    rw [htw]

/-! ## Cheap-case classification and UNDEF-free keys -/

theorem isCheap_iff {L R : List Row} {jcs : List (Nat × Nat)} :
    isCheap L R jcs = true ↔ ∀ jc ∈ jcs,
      (∀ v ∈ getColumn L jc.1, v.isUndefined = false) ∧
      (∀ v ∈ getColumn R jc.2, v.isUndefined = false) := by
  rw [isCheap, Bool.not_eq_true']
  rw [List.any_eq_false]
  constructor
  · intro h jc hjc
    have h2 := h jc hjc
    simp only [Bool.or_eq_true, not_or, List.any_eq_true, not_exists, not_and] at h2
    exact ⟨fun v hv => Bool.eq_false_iff.mpr (h2.2 v hv),
      fun v hv => Bool.eq_false_iff.mpr (h2.1 v hv)⟩
  · intro h jc hjc
    have h2 := h jc hjc
    simp only [Bool.or_eq_true, not_or, List.any_eq_true, not_exists, not_and]
    exact ⟨fun v hv => by simp [(h2.2 v hv)], fun v hv => by simp [(h2.1 v hv)]⟩

theorem joinKeyL_defined {L : List Row} {jcs : List (Nat × Nat)} {l : Row}
    (hl : l ∈ L)
    (hcheap : ∀ jc ∈ jcs, ∀ v ∈ getColumn L jc.1, v.isUndefined = false) :
    ∀ v ∈ joinKeyL jcs l, v.isUndefined = false := by
  intro v hv
  obtain ⟨jc, hjc, rfl⟩ := List.mem_map.mp hv
  exact hcheap jc hjc _ (List.mem_map_of_mem _ hl)

theorem joinKeyR_defined {R : List Row} {jcs : List (Nat × Nat)} {r : Row}
    (hr : r ∈ R)
    (hcheap : ∀ jc ∈ jcs, ∀ v ∈ getColumn R jc.2, v.isUndefined = false) :
    ∀ v ∈ joinKeyR jcs r, v.isUndefined = false := by
  intro v hv
  obtain ⟨jc, hjc, rfl⟩ := List.mem_map.mp hv
  exact hcheap jc hjc _ (List.mem_map_of_mem _ hr)

theorem keysMatch_eq_decide : ∀ {a b : Row}, a.length = b.length →
    (∀ v ∈ a, v.isUndefined = false) → (∀ v ∈ b, v.isUndefined = false) →
    keysMatch a b = decide (a = b)
  | [], [], _, _, _ => by simp [keysMatch]
  | [], _ :: _, h, _, _ => by simp at h
  | _ :: _, [], h, _, _ => by simp at h
  | x :: as, y :: bs, h, ha, hb => by
    have hx := ha x (by simp)
    have hy := hb y (by simp)
    cases x with
    | undef => simp [Id.isUndefined] at hx
    | val m =>
      cases y with
      | undef => simp [Id.isUndefined] at hy
      | val n =>
        rw [keysMatch]
        rw [keysMatch_eq_decide (by simpa using h)
          (fun v hv => ha v (List.mem_cons_of_mem _ hv))
          (fun v hv => hb v (List.mem_cons_of_mem _ hv))]
        rw [Id.matchesB]
        by_cases hmn : m = n
        · subst hmn; simp
        · simp [hmn]

/-- Under the cheap-case precondition, the UNDEF-aware match test coincides
with the merge's key-equivalence test. -/
theorem keysMatch_eq_sameKey {a b : Row} (h : a.length = b.length)
    (ha : ∀ v ∈ a, v.isUndefined = false) (hb : ∀ v ∈ b, v.isUndefined = false) :
    keysMatch a b = sameKey a b := by
  rw [keysMatch_eq_decide h ha hb, sameKey_eq_decide]

/-! ## Combined rows and the column permutation -/

theorem length_mergedKey (jcs : List (Nat × Nat)) (l r : Row) :
    (mergedKey jcs l r).length = jcs.length := by
  simp [mergedKey]

theorem mergedKey_eq_joinKeyL {jcs : List (Nat × Nat)} {l r : Row}
    (h : ∀ jc ∈ jcs, (l.getD jc.1 Id.undef).isUndefined = false) :
    mergedKey jcs l r = joinKeyL jcs l := by
  apply List.map_congr_left
  intro jc hjc
  rw [mergeIds, h jc hjc]
  simp

theorem take_combinedRow (jcs : List (Nat × Nat)) (wl wr : Nat) (l r : Row) :
    (combinedRow jcs wl wr l r).take jcs.length = mergedKey jcs l r := by
  rw [combinedRow, ← length_mergedKey jcs l r, List.take_left]

theorem length_combinedRow_ge (jcs : List (Nat × Nat)) (wl wr : Nat) (l r : Row) :
    jcs.length ≤ (combinedRow jcs wl wr l r).length := by
  rw [combinedRow, List.length_append, length_mergedKey]
  omega

theorem readCols_range_take {k : Nat} {row : Row} (h : k ≤ row.length) :
    readCols (List.range k) row = row.take k := by
  apply List.ext_getElem
  · simp [readCols]
    omega
  · intro n h1 h2
    simp only [readCols] at h1 ⊢
    rw [List.getElem_map]
    rw [List.getElem_range]
    have hn : n < k := by simpa using h1
    rw [getD_eq_getElem row Id.undef (by omega)]
    rw [List.getElem_take]

/-- Reading the output table at the columns reported by `resultSortedOn`
recovers the merged join key of each row (the first `k` columns of the
kernel's table). -/
theorem readCols_applyPerm {jcs : List (Nat × Nat)} {wl wr : Nat} {row : Row}
    (hnd : (jcs.map (fun a => a.1)).Nodup) (hb : ∀ jc ∈ jcs, jc.1 < wl)
    (hk : jcs.length ≤ row.length) :
    readCols (resultSortedOn jcs) (applyPerm (permutationResult jcs wl wr) row) =
      row.take jcs.length := by
  apply List.ext_getElem
  · simp [readCols, resultSortedOn]
    omega
  · intro n h1 h2
    have hn : n < jcs.length := by simpa [readCols, resultSortedOn] using h1
    simp only [readCols, resultSortedOn, List.map_map] at h1 ⊢
    rw [List.getElem_map]
    have hfst : jcs[n].1 < wl := hb jcs[n] (List.getElem_mem hn)
    -- evaluate the permuted row at column jcs[n].1
    have hperm : (applyPerm (permutationResult jcs wl wr) row).getD jcs[n].1 Id.undef
        = row.getD n Id.undef := by
      rw [applyPerm]
      have hlenperm : jcs[n].1 < (permutationResult jcs wl wr).length := by
        rw [permutationResult, List.length_append, List.length_map,
          List.length_range]
        omega
      rw [getD_map_lt _ _ _ 0 hlenperm]
      have hpermval : (permutationResult jcs wl wr).getD jcs[n].1 0 = n := by
        rw [permutationResult]
        rw [getD_append_left _ _ _ (by simpa using hfst)]
        rw [getD_map_lt _ _ _ 0 (by simpa using hfst)]
        rw [getD_range _ _ hfst]
        rw [leftColIndex, jcIndexL_self_of_nodup hnd hn]
      rw [hpermval]
    simp only [Function.comp] at hperm ⊢
    rw [hperm]
    rw [getD_eq_getElem row Id.undef (by omega)]
    rw [List.getElem_take]

/-- Permuting a combined kernel row back into the parent's column order
yields exactly the natural-join output row. -/
theorem applyPerm_combinedRow {jcs : List (Nat × Nat)} {wl wr : Nat} {l r : Row}
    (hL : l.length = wl) (hR : r.length = wr)
    (hndL : (jcs.map (fun a => a.1)).Nodup)
    (hndR : (jcs.map (fun a => a.2)).Nodup)
    (hbL : ∀ jc ∈ jcs, jc.1 < wl) (hbR : ∀ jc ∈ jcs, jc.2 < wr) :
    applyPerm (permutationResult jcs wl wr) (combinedRow jcs wl wr l r) =
      naturalJoinRow jcs l r := by
  have hkl : (nonJoinCols wl (jcs.map (fun a => a.1))).length + jcs.length = wl := by
    have h0 := length_nonJoinCols wl hndL (fun c hc => by
      obtain ⟨jc, hjc, rfl⟩ := List.mem_map.mp hc
      exact hbL jc hjc)
    simpa using h0
  have hkr : (nonJoinCols wr (jcs.map (fun a => a.2))).length + jcs.length = wr := by
    have h0 := length_nonJoinCols wr hndR (fun c hc => by
      obtain ⟨jc, hjc, rfl⟩ := List.mem_map.mp hc
      exact hbR jc hjc)
    simpa using h0
  rw [applyPerm, permutationResult, List.map_append, List.map_map, List.map_map]
  rw [naturalJoinRow, hL, hR]
  have hleft : (List.range wl).map
        ((fun i => (combinedRow jcs wl wr l r).getD i Id.undef) ∘ leftColIndex jcs wl) =
      (List.range wl).map (fun c =>
        match jcLookupL jcs c with
        | some jc => mergeIds (l.getD c Id.undef) (r.getD jc.2 Id.undef)
        | none => l.getD c Id.undef) := by
    apply List.map_congr_left
    intro c hc
    have hcw : c < wl := List.mem_range.mp hc
    simp only [Function.comp]
    rw [leftColIndex]
    cases hidx : jcIndexL jcs c with
    | some i =>
      obtain ⟨jc, hget, hlt, hfst, hlook⟩ := jcIndexL_some_spec hidx
      rw [hlook]
      rw [combinedRow]
      rw [getD_append_left _ _ _ (by rw [length_mergedKey]; exact hlt)]
      rw [mergedKey]
      rw [getD_map_lt _ _ _ (0, 0) hlt]
      rw [hget, hfst]
    | none =>
      obtain ⟨hall, hlook⟩ := jcIndexL_none_spec hidx
      rw [hlook]
      rw [combinedRow]
      have hmem : c ∈ nonJoinCols wl (jcs.map (fun a => a.1)) := by
        apply mem_nonJoinCols.mpr
        refine ⟨hcw, fun hcm => ?_⟩
        obtain ⟨jc, hjc, hj⟩ := List.mem_map.mp hcm
        exact hall jc hjc hj
      have hpos := posIn_lt hmem
      rw [show jcs.length = (mergedKey jcs l r).length from
        (length_mergedKey jcs l r).symm]
      rw [getD_append_right]
      rw [getD_append_left _ _ _ (by rw [List.length_map]; exact hpos)]
      rw [getD_map_lt _ _ _ 0 hpos]
      rw [getD_posIn hmem]
  have hlenmap : (((nonJoinCols wr (jcs.map (fun a => a.2))).map
      (fun c => r.getD c Id.undef))).length = wr - jcs.length := by
    rw [List.length_map]
    omega
  have hright : (List.range (wr - jcs.length)).map
        ((fun i => (combinedRow jcs wl wr l r).getD i Id.undef) ∘ fun j => wl + j) =
      ((List.range wr).filter
          (fun c => !((jcs.map (fun a => a.2)).contains c))).map
        (fun c => r.getD c Id.undef) := by
    have hstep : (List.range (wr - jcs.length)).map
          ((fun i => (combinedRow jcs wl wr l r).getD i Id.undef) ∘ fun j => wl + j) =
        (List.range (wr - jcs.length)).map (fun j =>
          ((nonJoinCols wr (jcs.map (fun a => a.2))).map
              (fun c => r.getD c Id.undef)).getD j Id.undef) := by
      apply List.map_congr_left
      intro j hj
      simp only [Function.comp]
      rw [combinedRow]
      have e1 : wl + j = (mergedKey jcs l r).length +
          (((nonJoinCols wl (jcs.map (fun a => a.1))).map
              (fun c => l.getD c Id.undef)).length + j) := by
        rw [length_mergedKey, List.length_map]
        omega
      rw [e1, getD_append_right, getD_append_right]
    have hres : (List.range wr).filter
          (fun c => !((jcs.map (fun a => a.2)).contains c)) =
        nonJoinCols wr (jcs.map (fun a => a.2)) := rfl
    rw [hstep, hres, ← hlenmap, getD_range_map]
  rw [hleft, hright]

/-! ## `countOutOfOrder` -/

theorem pairwise_of_countOutOfOrder_zero :
    ∀ {keys : List Row}, countOutOfOrder keys = 0 →
      keys.Pairwise (fun a b => lexLt b a = false) := by
  intro keys
  induction keys with
  | nil => intro _; exact List.Pairwise.nil
  | cons a rest ih =>
    intro h
    cases rest with
    | nil => simp
    | cons b rest2 =>
      rw [countOutOfOrder] at h
      have hab : lexLt b a = false := by
        by_cases hx : lexLt b a = true
        · simp [hx] at h
        · exact Bool.eq_false_iff.mpr hx
      have h2 : countOutOfOrder (b :: rest2) = 0 := by
        by_cases hx : lexLt b a = true
        · simp [hx] at h
        · simp [hx] at h
          omega
      have hp := ih h2
      refine List.pairwise_cons.mpr ⟨?_, hp⟩
      intro c hc
      rcases List.mem_cons.mp hc with rfl | hc2
      · exact hab
      · have hbc := (List.pairwise_cons.mp hp).1 c hc2
        exact lexLe_trans hab hbc

/-! ## Assembling `computeMultiColumnJoin` -/

theorem pairwise_of_forall {α : Type} {R : α → α → Prop} (h : ∀ a b, R a b) :
    ∀ (l : List α), l.Pairwise R := by
  intro l
  induction l with
  | nil => exact List.Pairwise.nil
  | cons x xs ih => exact List.pairwise_cons.mpr ⟨fun b _ => h x b, ih⟩

/-- The nested-loop enumeration emits its pairs in order of the (sorted)
left input, so the left keys of the emissions are non-decreasing. -/
theorem nestedPairs_fst_sorted {p : Row → Row → Bool} {kL : Row → Row} :
    ∀ {L R : List Row}, L.Pairwise (fun a b => lexLt (kL b) (kL a) = false) →
      (nestedPairs p L R).Pairwise
        (fun q1 q2 => lexLt (kL q2.1) (kL q1.1) = false) := by
  intro L
  induction L with
  | nil => intro R _; exact List.Pairwise.nil
  | cons l ls ih =>
    intro R hs
    rw [nestedPairs]
    apply List.pairwise_append.mpr
    refine ⟨?_, ih (List.pairwise_cons.mp hs).2, ?_⟩
    · apply List.pairwise_map.mpr
      apply pairwise_of_forall
      intro a b
      simp [lexLt_irrefl]
    · intro x hx y hy
      obtain ⟨r1, _, rfl⟩ := List.mem_map.mp hx
      have hy1 : y.1 ∈ ls := (nestedPairs_mem hy).1
      exact (List.pairwise_cons.mp hs).1 y.1 hy1

/-- In the non-empty case, the kernel emits exactly the UNDEF-aware matching
pairs (via the equivalence of the two-pointer merge and the nested loop in
the cheap case). -/
theorem joinKernelPairs_eq_matching {L R : List Row} {jcs : List (Nat × Nat)}
    (hsL : L.Pairwise (fun a b => lexLt (joinKeyL jcs b) (joinKeyL jcs a) = false))
    (hsR : R.Pairwise (fun a b => lexLt (joinKeyR jcs b) (joinKeyR jcs a) = false)) :
    joinKernelPairs (isCheap L R jcs) (joinKeyL jcs) (joinKeyR jcs) L R =
      nestedPairs (fun l r => keysMatch (joinKeyL jcs l) (joinKeyR jcs r)) L R := by
  by_cases hch : isCheap L R jcs = true
  · rw [joinKernelPairs, hch, if_pos rfl]
    rw [zipperJoinCheap_eq_nested (joinKeyL jcs) (joinKeyR jcs) L R hsL hsR]
    apply nestedPairs_congr
    intro l hl r hr
    apply Eq.symm
    apply keysMatch_eq_sameKey
    · simp [joinKeyL, joinKeyR]
    · exact joinKeyL_defined hl (fun jc hjc => (isCheap_iff.mp hch jc hjc).1)
    · exact joinKeyR_defined hr (fun jc hjc => (isCheap_iff.mp hch jc hjc).2)
  · have hch' : isCheap L R jcs = false := Bool.eq_false_iff.mpr hch
    rw [joinKernelPairs, hch']
    simp [zipperJoinWithUndefGeneral]

theorem naturalJoin_nil_right (jcs : List (Nat × Nat)) (L : List Row) :
    naturalJoin jcs L [] = [] := by
  rw [naturalJoin_eq_map, nestedPairs_nil_right]
  rfl

/-- C1.  For sorted inputs with well-formed join columns, the multiset of
rows produced by `computeMultiColumnJoin` is the multiset of rows of the
relational natural join with UNDEF wildcard semantics. -/
theorem multiColumnJoin_natural_join_perm
    {L R : List Row} {jcs : List (Nat × Nat)} {wl wr : Nat}
    (hWL : ∀ row ∈ L, row.length = wl) (hWR : ∀ row ∈ R, row.length = wr)
    (hndL : (jcs.map (fun a => a.1)).Nodup)
    (hndR : (jcs.map (fun a => a.2)).Nodup)
    (hbL : ∀ jc ∈ jcs, jc.1 < wl) (hbR : ∀ jc ∈ jcs, jc.2 < wr)
    (hsL : L.Pairwise (fun a b => lexLt (joinKeyL jcs b) (joinKeyL jcs a) = false))
    (hsR : R.Pairwise (fun a b => lexLt (joinKeyR jcs b) (joinKeyR jcs a) = false)) :
    (computeMultiColumnJoin L R jcs wl wr []).Perm (naturalJoin jcs L R) := by
  by_cases hempty : (L.isEmpty || R.isEmpty) = true
  · rw [computeMultiColumnJoin, if_pos hempty]
    rcases Bool.or_eq_true_iff.mp hempty with h | h
    · rw [List.isEmpty_iff.mp h, naturalJoin]
    · rw [List.isEmpty_iff.mp h, naturalJoin_nil_right]
  · have hcond : (L.isEmpty || R.isEmpty) = false := Bool.eq_false_iff.mpr hempty
    simp only [computeMultiColumnJoin, hcond, Bool.false_eq_true, if_false,
      List.nil_append]
    rw [joinKernelPairs_eq_matching hsL hsR]
    trans (((nestedPairs (fun l r => keysMatch (joinKeyL jcs l) (joinKeyR jcs r))
          L R).map (fun p => combinedRow jcs wl wr p.1 p.2)).map
        (applyPerm (permutationResult jcs wl wr)))
    · apply List.Perm.map
      by_cases hoo : (if isCheap L R jcs = true then 0
          else countOutOfOrder
            ((nestedPairs (fun l r => keysMatch (joinKeyL jcs l) (joinKeyR jcs r))
                L R).map (fun p => mergedKey jcs p.1 p.2))) > 0
      · rw [if_pos hoo]
        exact List.mergeSort_perm _ _
      · rw [if_neg hoo]
    · rw [List.map_map, naturalJoin_eq_map]
      have heq : ∀ q ∈ nestedPairs
            (fun l r => keysMatch (joinKeyL jcs l) (joinKeyR jcs r)) L R,
          (applyPerm (permutationResult jcs wl wr) ∘
            fun p => combinedRow jcs wl wr p.1 p.2) q =
            (fun q => naturalJoinRow jcs q.1 q.2) q := by
        intro q hq
        obtain ⟨hq1, hq2⟩ := nestedPairs_mem hq
        simp only [Function.comp]
        exact applyPerm_combinedRow (hWL q.1 hq1) (hWR q.2 hq2) hndL hndR hbL hbR
      rw [List.map_congr_left heq]

theorem mem_engineSort {cols : List Nat} {rows : List Row} {row : Row} :
    row ∈ engineSort cols rows ↔ row ∈ rows := by
  rw [engineSort]
  exact (List.mergeSort_perm rows _).mem_iff

theorem engineSort_sorted (cols : List Nat) (rows : List Row) :
    (engineSort cols rows).Pairwise
      (fun a b => lexLt (readCols cols b) (readCols cols a) = false) := by
  rw [engineSort]
  have h : (rows.mergeSort
        (fun a b => !lexLt (readCols cols b) (readCols cols a))).Pairwise
      (fun a b => (!lexLt (readCols cols b) (readCols cols a)) = true) := by
    apply List.sorted_mergeSort
    · intro a b c hab hbc
      simp only [Bool.not_eq_true'] at hab hbc ⊢
      exact lexLe_trans hab hbc
    · intro a b
      by_cases hx : lexLt (readCols cols b) (readCols cols a) = true
      · simp [hx, lexLt_asymm hx]
      · simp [Bool.eq_false_iff.mpr hx]
  exact h.imp (fun hab => by simpa using hab)

theorem getD_mem_getColumn {L : List Row} {l : Row} (hl : l ∈ L) (c : Nat) :
    l.getD c Id.undef ∈ getColumn L c := by
  rw [getColumn]
  exact List.mem_map_of_mem _ hl

/-- C2.  For sorted inputs with well-formed join columns, the table returned
by `computeMultiColumnJoin` is lexicographically non-decreasing row-wise on
the columns reported by `resultSortedOn` (the left join columns in join
order): the cheap merge emits in order, and otherwise the table is either
emitted in order (`numOutOfOrder = 0`) or explicitly sorted. -/
theorem multiColumnJoin_result_sorted
    {L R : List Row} {jcs : List (Nat × Nat)} {wl wr : Nat}
    (hndL : (jcs.map (fun a => a.1)).Nodup)
    (hbL : ∀ jc ∈ jcs, jc.1 < wl)
    (hsL : L.Pairwise (fun a b => lexLt (joinKeyL jcs b) (joinKeyL jcs a) = false))
    (hsR : R.Pairwise (fun a b => lexLt (joinKeyR jcs b) (joinKeyR jcs a) = false)) :
    (computeMultiColumnJoin L R jcs wl wr []).Pairwise
      (fun a b => lexLt (readCols (resultSortedOn jcs) b)
        (readCols (resultSortedOn jcs) a) = false) := by
  by_cases hempty : (L.isEmpty || R.isEmpty) = true
  · rw [computeMultiColumnJoin, if_pos hempty]
    exact List.Pairwise.nil
  · have hcond : (L.isEmpty || R.isEmpty) = false := Bool.eq_false_iff.mpr hempty
    simp only [computeMultiColumnJoin, hcond, Bool.false_eq_true, if_false,
      List.nil_append]
    rw [joinKernelPairs_eq_matching hsL hsR]
    set prs := nestedPairs
      (fun l r => keysMatch (joinKeyL jcs l) (joinKeyR jcs r)) L R with hprs
    set emap := prs.map (fun p => combinedRow jcs wl wr p.1 p.2) with hemap
    set cnt := (if isCheap L R jcs = true then 0
      else countOutOfOrder (prs.map (fun p => mergedKey jcs p.1 p.2))) with hcnt
    have htrans : ∀ (rows : List Row),
        (∀ row ∈ rows, jcs.length ≤ row.length) →
        rows.Pairwise
          (fun a b => lexLt (b.take jcs.length) (a.take jcs.length) = false) →
        (rows.map (applyPerm (permutationResult jcs wl wr))).Pairwise
          (fun a b => lexLt (readCols (resultSortedOn jcs) b)
            (readCols (resultSortedOn jcs) a) = false) := by
      intro rows hlen hp
      apply List.pairwise_map.mpr
      apply hp.imp_of_mem
      intro a b ha hb hab
      rw [readCols_applyPerm hndL hbL (hlen a ha),
        readCols_applyPerm hndL hbL (hlen b hb)]
      exact hab
    have hlen : ∀ row ∈ emap, jcs.length ≤ row.length := by
      intro row h
      rw [hemap] at h
      obtain ⟨q, hq, rfl⟩ := List.mem_map.mp h
      exact length_combinedRow_ge jcs wl wr q.1 q.2
    have hmem : ∀ row ∈ (if cnt > 0
        then engineSort (List.range jcs.length) emap else emap), row ∈ emap := by
      intro row h
      by_cases hc : cnt > 0
      · rw [if_pos hc] at h
        exact mem_engineSort.mp h
      · rw [if_neg hc] at h
        exact h
    apply htrans
    · intro row h
      exact hlen row (hmem row h)
    · by_cases hc : cnt > 0
      · rw [if_pos hc]
        have h := engineSort_sorted (List.range jcs.length) emap
        apply h.imp_of_mem
        intro a b ha hb hab
        rw [readCols_range_take (hlen a (mem_engineSort.mp ha)),
          readCols_range_take (hlen b (mem_engineSort.mp hb))] at hab
        exact hab
      · rw [if_neg hc]
        have hp2 : prs.Pairwise (fun q1 q2 =>
            lexLt (mergedKey jcs q2.1 q2.2) (mergedKey jcs q1.1 q1.2) = false) := by
          by_cases hch : isCheap L R jcs = true
          · have hp1 : prs.Pairwise (fun q1 q2 =>
                lexLt (joinKeyL jcs q2.1) (joinKeyL jcs q1.1) = false) := by
              rw [hprs]
              exact nestedPairs_fst_sorted hsL
            apply hp1.imp_of_mem
            intro q1 q2 h1 h2 hab
            have hq1L : q1.1 ∈ L := (nestedPairs_mem (by rw [hprs] at h1; exact h1)).1
            have hq2L : q2.1 ∈ L := (nestedPairs_mem (by rw [hprs] at h2; exact h2)).1
            rw [mergedKey_eq_joinKeyL (fun jc hjc =>
              (isCheap_iff.mp hch jc hjc).1 _ (getD_mem_getColumn hq1L jc.1))]
            rw [mergedKey_eq_joinKeyL (fun jc hjc =>
              (isCheap_iff.mp hch jc hjc).1 _ (getD_mem_getColumn hq2L jc.1))]
            exact hab
          · have hch' : isCheap L R jcs = false := Bool.eq_false_iff.mpr hch
            rw [hcnt, hch'] at hc
            simp only [Bool.false_eq_true, if_false, gt_iff_lt,
              Nat.pos_iff_ne_zero, ne_eq, not_not] at hc
            have hkeys := pairwise_of_countOutOfOrder_zero hc
            rw [List.pairwise_map] at hkeys
            exact hkeys
        rw [hemap]
        apply List.pairwise_map.mpr
        apply hp2.imp
        intro q1 q2 hab
        rw [take_combinedRow, take_combinedRow]
        exact hab

/-- C1 witness (spec §8, scenario 2): a single-column join with an UNDEF key
on the left; the UNDEF row matches both right rows. -/
theorem multiColumnJoin_natural_join_perm_witness :
    ((∀ row ∈ [[Id.undef, Id.val 1], [Id.val 2, Id.val 1]], row.length = 2) ∧
      (∀ row ∈ [[Id.val 1, Id.val 1], [Id.val 2, Id.val 1]], row.length = 2) ∧
      (([(0, 0)] : List (Nat × Nat)).map (fun a => a.1)).Nodup ∧
      (([(0, 0)] : List (Nat × Nat)).map (fun a => a.2)).Nodup ∧
      (∀ jc ∈ ([(0, 0)] : List (Nat × Nat)), jc.1 < 2) ∧
      (∀ jc ∈ ([(0, 0)] : List (Nat × Nat)), jc.2 < 2) ∧
      List.Pairwise (fun a b => lexLt (joinKeyL [(0, 0)] b)
          (joinKeyL [(0, 0)] a) = false)
        [[Id.undef, Id.val 1], [Id.val 2, Id.val 1]] ∧
      List.Pairwise (fun a b => lexLt (joinKeyR [(0, 0)] b)
          (joinKeyR [(0, 0)] a) = false)
        [[Id.val 1, Id.val 1], [Id.val 2, Id.val 1]]) ∧
    (computeMultiColumnJoin [[Id.undef, Id.val 1], [Id.val 2, Id.val 1]]
        [[Id.val 1, Id.val 1], [Id.val 2, Id.val 1]] [(0, 0)] 2 2 []).Perm
      (naturalJoin [(0, 0)] [[Id.undef, Id.val 1], [Id.val 2, Id.val 1]]
        [[Id.val 1, Id.val 1], [Id.val 2, Id.val 1]]) :=
  ⟨by decide,
    multiColumnJoin_natural_join_perm (by decide) (by decide) (by decide)
      (by decide) (by decide) (by decide) (by decide) (by decide)⟩

/-- C2 witness, at the same UNDEF-containing input as the C1 witness. -/
theorem multiColumnJoin_result_sorted_witness :
    ((([(0, 0)] : List (Nat × Nat)).map (fun a => a.1)).Nodup ∧
      (∀ jc ∈ ([(0, 0)] : List (Nat × Nat)), jc.1 < 2) ∧
      List.Pairwise (fun a b => lexLt (joinKeyL [(0, 0)] b)
          (joinKeyL [(0, 0)] a) = false)
        [[Id.undef, Id.val 1], [Id.val 2, Id.val 1]] ∧
      List.Pairwise (fun a b => lexLt (joinKeyR [(0, 0)] b)
          (joinKeyR [(0, 0)] a) = false)
        [[Id.val 1, Id.val 1], [Id.val 2, Id.val 1]]) ∧
    (computeMultiColumnJoin [[Id.undef, Id.val 1], [Id.val 2, Id.val 1]]
        [[Id.val 1, Id.val 1], [Id.val 2, Id.val 1]] [(0, 0)] 2 2 []).Pairwise
      (fun a b => lexLt (readCols (resultSortedOn [(0, 0)]) b)
        (readCols (resultSortedOn [(0, 0)]) a) = false) :=
  ⟨by decide,
    multiColumnJoin_result_sorted (by decide) (by decide) (by decide)
      (by decide)⟩

/-! ## Remaining operator members of `MultiColumnJoin` -/

/-- Translation of `MultiColumnJoin::getResultWidth` (MultiColumnJoin.cpp:101-106).
`size_t` arithmetic wraps modulo `2^64`; the `AD_CONTRACT_CHECK(res > 0)` is
modelled by `Option`: `none` means the contract check fires. -/
def getResultWidth (wl wr k : Nat) : Option Nat :=
  let res := (((wl : Int) + (wr : Int) - (k : Int)) % (2 ^ 64 : Int)).toNat
  if 0 < res then some res else none

/-- C9.  With at least one join column and the join columns counted among
both children's columns, `getResultWidth` returns `wl + wr - k`, which is
positive, so the contract check `AD_CONTRACT_CHECK(res > 0)` cannot fire. -/
theorem getResultWidth_safe {wl wr k : Nat} (h1 : 1 ≤ k) (h2 : k ≤ wl)
    (h3 : k ≤ wr) (h4 : wl + wr < 2 ^ 64) :
    getResultWidth wl wr k = some (wl + wr - k) ∧ 0 < wl + wr - k := by
  have hN : (2 ^ 64 : Int) = 18446744073709551616 := by norm_num
  have hN2 : (2 ^ 64 : Nat) = 18446744073709551616 := by norm_num
  rw [hN2] at h4
  have hmod : ((wl : Int) + wr - k) % (2 ^ 64 : Int) = (wl : Int) + wr - k := by
    rw [hN]
    omega
  constructor
  · simp only [getResultWidth, hmod]
    have htn : ((wl : Int) + wr - k).toNat = wl + wr - k := by omega
    rw [htn, if_pos (by omega)]
  · omega

/-- C9 witness. -/
theorem getResultWidth_safe_witness :
    (1 ≤ 2 ∧ 2 ≤ 3 ∧ 2 ≤ 4 ∧ 3 + 4 < 2 ^ 64) ∧
      (getResultWidth 3 4 2 = some (3 + 4 - 2) ∧ 0 < 3 + 4 - 2) :=
  ⟨by decide, getResultWidth_safe (by decide) (by decide) (by decide)
    (by norm_num)⟩

/-- C3.  The input is classified as cheap iff no join column of either side
contains an UNDEF value, and exactly in the cheap case the kernel runs the
two-pointer merge with no-op probes, otherwise the `findSmallerUndefRanges`
variant. -/
theorem multiColumnJoin_cheap_classification (L R : List Row)
    (jcs : List (Nat × Nat)) (kL kR : Row → Row) :
    (isCheap L R jcs = true ↔ ∀ jc ∈ jcs,
      (∀ v ∈ getColumn L jc.1, v.isUndefined = false) ∧
      (∀ v ∈ getColumn R jc.2, v.isUndefined = false)) ∧
    joinKernelPairs (isCheap L R jcs) kL kR L R =
      (if isCheap L R jcs = true then zipperJoinCheap kL kR L R
       else zipperJoinWithUndefGeneral kL kR L R) := by
  exact ⟨isCheap_iff, rfl⟩

/-- C8.  If either input table is empty, `computeMultiColumnJoin` returns the
caller's pre-constructed (empty) result table unchanged, without running the
join kernel. -/
theorem multiColumnJoin_empty_short_circuit
    {left right : List Row} (jcs : List (Nat × Nat)) (wl wr : Nat)
    (result : List Row) (h : left = [] ∨ right = []) :
    computeMultiColumnJoin left right jcs wl wr result = result := by
  rw [computeMultiColumnJoin, if_pos ?_]
  rcases h with h | h
  · rw [h]
    simp
  · rw [h]
    simp

/-- C8 witness: a non-empty left table joined with an empty right table
returns the empty pre-constructed result. -/
theorem multiColumnJoin_empty_short_circuit_witness :
    ([[Id.val 1, Id.val 2]] = ([] : List Row) ∨ ([] : List Row) = []) ∧
      computeMultiColumnJoin [[Id.val 1, Id.val 2]] [] [(0, 0)] 2 2 [] = [] :=
  ⟨Or.inr rfl, multiColumnJoin_empty_short_circuit [(0, 0)] 2 2 [] (Or.inr rfl)⟩

/-! ## Construction and cache key of the operator -/

/-- Abstraction of a child `QueryExecutionTree`: the attributes read by the
modelled operations (its memoized cache key, the variable bound to each
result column, the sort order it guarantees, and `knownEmptyResult()`). -/
structure QueryExecutionTree where
  cacheKey : String
  varNames : List String
  sortedOn : List Nat
  knownEmpty : Bool
deriving DecidableEq, Repr

/-- First index of a variable in a column-to-variable list, if bound. -/
def findVar : List String → String → Option Nat
  | [], _ => none
  | x :: rest, v => if x = v then some 0 else (findVar rest v).map (· + 1)

def getJoinColumnsAux : List String → Nat → List String → List (Nat × Nat)
  | [], _, _ => []
  | v :: rest, i, vars2 =>
    match findVar vars2 v with
    | some j => (i, j) :: getJoinColumnsAux rest (i + 1) vars2
    | none => getJoinColumnsAux rest (i + 1) vars2

/-- Modelled from the spec: `QueryExecutionTree::getJoinColumns` (not in this
repository) pairs each column of the first child with the column of the
second child bound to the same variable (§4.3, §4.5). -/
def getJoinColumns (t1 t2 : QueryExecutionTree) : List (Nat × Nat) :=
  getJoinColumnsAux t1.varNames 0 t2.varNames

/-- Modelled from the spec: the planner ensures each child is sorted on its
join columns by inserting a `Sort` when needed (§4.3); we record the
guaranteed sort order on the subtree. -/
def createSortedTree (t : QueryExecutionTree) (cols : List Nat) :
    QueryExecutionTree :=
  { t with sortedOn := cols }

/-- Modelled from the spec:
`QueryExecutionTree::getSortedSubtreesAndJoinColumns`
(engine/QueryExecutionTree.cpp, not in this repository) computes the join
columns of the two children and returns the children, each sorted on its
join columns, in the given order — children are not swapped at this level
(§4.3, §4.5). -/
def getSortedSubtreesAndJoinColumns (t1 t2 : QueryExecutionTree) :
    QueryExecutionTree × QueryExecutionTree × List (Nat × Nat) :=
  let jcs := getJoinColumns t1 t2
  (createSortedTree t1 (jcs.map (fun a => a.1)),
    createSortedTree t2 (jcs.map (fun a => a.2)), jcs)

/-- The state of a constructed `MultiColumnJoin` operation. -/
structure MultiColumnJoin where
  _left : QueryExecutionTree
  _right : QueryExecutionTree
  _joinColumns : List (Nat × Nat)
deriving DecidableEq, Repr

/-- Translation of `MultiColumnJoin::MultiColumnJoin` (MultiColumnJoin.cpp:18-31).  The
fourth C++ parameter defaults to `false` (here it is passed explicitly), so
a three-argument construction never enters the swap branch; only tests pass
`true`, in which case the children are first put into cache-key order.  The
`qec` argument plays no role in the modelled state. -/
def MultiColumnJoin.construct (t1 t2 : QueryExecutionTree)
    (allowSwappingChildrenOnlyForTesting : Bool) : MultiColumnJoin :=
  let doSwap := allowSwappingChildrenOnlyForTesting &&
    decide (t2.cacheKey < t1.cacheKey)
  let p := if doSwap then (t2, t1) else (t1, t2)
  let s := getSortedSubtreesAndJoinColumns p.1 p.2
  ⟨s.1, s.2.1, s.2.2⟩

/-- C4.  A three-argument construction (swap flag at its default `false`)
never swaps the children: the left child is (the sorted version of) `t1` and
the right child is (the sorted version of) `t2`; in particular the children
keep their cache keys in order. -/
theorem multiColumnJoin_constructor_no_swap (t1 t2 : QueryExecutionTree) :
    (MultiColumnJoin.construct t1 t2 false)._left =
        createSortedTree t1 ((getJoinColumns t1 t2).map (fun a => a.1)) ∧
      (MultiColumnJoin.construct t1 t2 false)._right =
        createSortedTree t2 ((getJoinColumns t1 t2).map (fun a => a.2)) ∧
      (MultiColumnJoin.construct t1 t2 false)._left.cacheKey = t1.cacheKey ∧
      (MultiColumnJoin.construct t1 t2 false)._right.cacheKey = t2.cacheKey :=
  ⟨rfl, rfl, rfl, rfl⟩

/-- The join-column list of one side rendered as in the cache key, with
`" & "` between entries and no trailing separator (the C++ loop emits the
separator only while `i < size - 1`). -/
def joinColsStr : List Nat → String
  | [] => ""
  | [c] => toString c
  | c :: rest => toString c ++ " & " ++ joinColsStr rest

/-- Translation of `MultiColumnJoin::getCacheKeyImpl` (MultiColumnJoin.cpp:34-49). -/
def MultiColumnJoin.getCacheKeyImpl (op : MultiColumnJoin) : String :=
  "MULTI_COLUMN_JOIN\n" ++ op._left.cacheKey ++ " " ++ "join-columns: [" ++
    joinColsStr (op._joinColumns.map (fun a => a.1)) ++ "]\n" ++
    "|X|\n" ++ op._right.cacheKey ++ " " ++ "join-columns: [" ++
    joinColsStr (op._joinColumns.map (fun a => a.2)) ++ "]"

/-- The cache key as the pure function of the only three inputs it reads:
the children's cache keys and the join-column pairs. -/
def multiColumnJoinCacheKeyOf (leftKey rightKey : String)
    (jcs : List (Nat × Nat)) : String :=
  "MULTI_COLUMN_JOIN\n" ++ leftKey ++ " " ++ "join-columns: [" ++
    joinColsStr (jcs.map (fun a => a.1)) ++ "]\n" ++
    "|X|\n" ++ rightKey ++ " " ++ "join-columns: [" ++
    joinColsStr (jcs.map (fun a => a.2)) ++ "]"

/-- C5.  The cache key depends only on the left child's cache key, the right
child's cache key and the join-column pairs, and it contains both children's
cache keys as well as both sides' join-column index lists. -/
theorem multiColumnJoin_cacheKey_props :
    (∀ op : MultiColumnJoin, op.getCacheKeyImpl =
      multiColumnJoinCacheKeyOf op._left.cacheKey op._right.cacheKey
        op._joinColumns) ∧
    (∀ op : MultiColumnJoin, ∃ s t,
      op.getCacheKeyImpl = s ++ op._left.cacheKey ++ t) ∧
    (∀ op : MultiColumnJoin, ∃ s t,
      op.getCacheKeyImpl = s ++ op._right.cacheKey ++ t) ∧
    (∀ op : MultiColumnJoin, ∃ s t, op.getCacheKeyImpl =
      s ++ joinColsStr (op._joinColumns.map (fun a => a.1)) ++ t) ∧
    (∀ op : MultiColumnJoin, ∃ s t, op.getCacheKeyImpl =
      s ++ joinColsStr (op._joinColumns.map (fun a => a.2)) ++ t) := by
  refine ⟨fun op => rfl, fun op => ?_, fun op => ?_, fun op => ?_, fun op => ?_⟩
  · refine ⟨"MULTI_COLUMN_JOIN\n",
      " join-columns: [" ++
        (joinColsStr (op._joinColumns.map (fun a => a.1)) ++ ("]\n|X|\n" ++
        (op._right.cacheKey ++ (" join-columns: [" ++
        (joinColsStr (op._joinColumns.map (fun a => a.2)) ++ "]"))))), ?_⟩
    rw [MultiColumnJoin.getCacheKeyImpl]
    simp [String.append_assoc]
  · refine ⟨"MULTI_COLUMN_JOIN\n" ++ (op._left.cacheKey ++
      (" join-columns: [" ++ (joinColsStr (op._joinColumns.map (fun a => a.1)) ++
        "]\n|X|\n"))),
      " join-columns: [" ++
        (joinColsStr (op._joinColumns.map (fun a => a.2)) ++ "]"), ?_⟩
    rw [MultiColumnJoin.getCacheKeyImpl]
    simp [String.append_assoc]
  · refine ⟨"MULTI_COLUMN_JOIN\n" ++ (op._left.cacheKey ++ " join-columns: ["),
      "]\n|X|\n" ++ (op._right.cacheKey ++ (" join-columns: [" ++
        (joinColsStr (op._joinColumns.map (fun a => a.2)) ++ "]"))), ?_⟩
    rw [MultiColumnJoin.getCacheKeyImpl]
    simp [String.append_assoc]
  · refine ⟨"MULTI_COLUMN_JOIN\n" ++ (op._left.cacheKey ++
      (" join-columns: [" ++ (joinColsStr (op._joinColumns.map (fun a => a.1)) ++
        ("]\n|X|\n" ++ (op._right.cacheKey ++ " join-columns: ["))))), "]", ?_⟩
    rw [MultiColumnJoin.getCacheKeyImpl]
    simp [String.append_assoc]

/-! ## Size and cost estimates -/

/-- Value of `std::numeric_limits<size_t>::max()`. -/
def sizeTMax : Nat := 2 ^ 64 - 1

/-- Stand-in for `std::numeric_limits<float>::max()` (≈ 3.4·10^38 < 2^129);
its exact value is irrelevant whenever at least one join column exists and
all multiplicities lie below it. -/
def floatMax : ℚ := 2 ^ 128

/-- Minimum of a list, with a default for the empty list. -/
def minOfD {α : Type} [Min α] (d : α) : List α → α
  | [] => d
  | x :: rest => rest.foldl min x

/-- Translation of `MultiColumnJoin::computeSizeEstimateAndMultiplicities`
(MultiColumnJoin.cpp:147-181), restricted to the `_sizeEstimate` member (the
`_multiplicities` vector is not read by any claim).  The children's
`getSizeEstimate()` are `size_t` values, their `getMultiplicity(col)` are
the functions `leftMult`/`rightMult`; C++ `float` arithmetic is modelled by
exact rationals, and the float-to-integer casts by `Int.floor` followed by
`Int.toNat` (all values cast here are non-negative). -/
def computeSizeEstimateAndMultiplicities (leftSize rightSize : Nat)
    (leftMult rightMult : Nat → ℚ) (jcs : List (Nat × Nat)) : Nat :=
  let numDistinctLeft := (jcs.map (fun jc =>
    (⌊max 1 ((leftSize : ℚ) / leftMult jc.1)⌋).toNat)).foldl min sizeTMax
  let numDistinctRight := (jcs.map (fun jc =>
    (⌊max 1 ((rightSize : ℚ) / rightMult jc.2)⌋).toNat)).foldl min sizeTMax
  let numDistinctResult := min numDistinctLeft numDistinctRight
  let multLeft := (jcs.map (fun jc => leftMult jc.1)).foldl min floatMax
  let multRight := (jcs.map (fun jc => rightMult jc.2)).foldl min floatMax
  let multResult := multLeft * multRight
  -- `_sizeEstimate = multResult * numDistinctResult; _sizeEstimate += 1;`
  (⌊multResult * (numDistinctResult : ℚ)⌋).toNat + 1

/-- Translation of `MultiColumnJoin::getSizeEstimateBeforeLimit` (MultiColumnJoin.cpp:
127-132) returns `_sizeEstimate`, computing it first when not yet memoized;
the memoization is state we flatten away. -/
def getSizeEstimateBeforeLimit (leftSize rightSize : Nat)
    (leftMult rightMult : Nat → ℚ) (jcs : List (Nat × Nat)) : Nat :=
  computeSizeEstimateAndMultiplicities leftSize rightSize leftMult rightMult jcs

/-- The size estimate as claim C6 words it: the product of the minimum
distinct-value estimate and the product of the two minimum multiplicities,
with the final estimate floored at 1, i.e. `max(product, 1)`. -/
def claimedSizeEstimate (leftSize rightSize : Nat)
    (leftMult rightMult : Nat → ℚ) (jcs : List (Nat × Nat)) : Nat :=
  let numDistinct := min
    (minOfD sizeTMax (jcs.map (fun jc =>
      (⌊max 1 ((leftSize : ℚ) / leftMult jc.1)⌋).toNat)))
    (minOfD sizeTMax (jcs.map (fun jc =>
      (⌊max 1 ((rightSize : ℚ) / rightMult jc.2)⌋).toNat)))
  let multProduct := minOfD floatMax (jcs.map (fun jc => leftMult jc.1)) *
    minOfD floatMax (jcs.map (fun jc => rightMult jc.2))
  max (⌊multProduct * (numDistinct : ℚ)⌋).toNat 1

/-- All-ones multiplicity function, used by concrete instances. -/
def unitMult : Nat → ℚ := fun _ => 1

/-- C6 counterexample.  The code adds 1 to the truncated product
(guaranteeing a nonzero estimate); it does not clamp with `max(·, 1)`: with
both children of size 4 and all multiplicities 1 it returns 5, while the
claimed formula gives 4. -/
theorem sizeEstimate_not_floored_counterexample :
    getSizeEstimateBeforeLimit 4 4 unitMult unitMult [(0, 0)] = 5 ∧
    claimedSizeEstimate 4 4 unitMult unitMult [(0, 0)] = 4 ∧
    (5 : Nat) ≠ 4 := by
  refine ⟨?_, ?_, by decide⟩
  · norm_num [getSizeEstimateBeforeLimit, computeSizeEstimateAndMultiplicities,
      sizeTMax, floatMax, unitMult]
    decide
  · norm_num [claimedSizeEstimate, minOfD, sizeTMax, floatMax, unitMult]
    decide

theorem foldl_min_init {α : Type} [LinearOrder α] {M x : α} (xs : List α)
    (hx : x ≤ M) : (x :: xs).foldl min M = xs.foldl min x := by
  rw [List.foldl_cons, min_eq_right hx]

theorem distinct_le_sizeTMax {s : Nat} {m : ℚ} (hs : s ≤ sizeTMax)
    (hm : 1 ≤ m) : (⌊max 1 ((s : ℚ) / m)⌋).toNat ≤ sizeTMax := by
  have h1 : (s : ℚ) / m ≤ (s : ℚ) := div_le_self (by positivity) hm
  have h2 : max 1 ((s : ℚ) / m) ≤ max 1 (s : ℚ) := max_le_max le_rfl h1
  have h4 : max (1 : ℚ) ((s : ℚ)) = ((max 1 s : Nat) : ℚ) := by
    rw [Nat.cast_max]
    norm_num
  have h3 : (⌊max 1 ((s : ℚ) / m)⌋ : Int) ≤ ⌊((max 1 s : Nat) : ℚ)⌋ := by
    rw [← h4]
    exact Int.floor_le_floor h2
  rw [Int.floor_natCast] at h3
  have h5 : max 1 s ≤ sizeTMax := by
    have : 1 ≤ sizeTMax := by norm_num [sizeTMax]
    omega
  omega

/-- C6 amended.  With at least one join column, all multiplicities in
`[1, floatMax]` and child sizes at most `sizeTMax`, the size estimate is the
truncated product of the minimum distinct-value estimate and the product of
the two minimum multiplicities, **plus one** (rather than clamped at 1). -/
theorem sizeEstimate_plus_one {leftSize rightSize : Nat}
    {leftMult rightMult : Nat → ℚ} {jcs : List (Nat × Nat)}
    (hne : jcs ≠ [])
    (hsl : leftSize ≤ sizeTMax) (hsr : rightSize ≤ sizeTMax)
    (hml : ∀ jc ∈ jcs, 1 ≤ leftMult jc.1 ∧ leftMult jc.1 ≤ floatMax)
    (hmr : ∀ jc ∈ jcs, 1 ≤ rightMult jc.2 ∧ rightMult jc.2 ≤ floatMax) :
    getSizeEstimateBeforeLimit leftSize rightSize leftMult rightMult jcs =
      (⌊(minOfD floatMax (jcs.map (fun jc => leftMult jc.1)) *
          minOfD floatMax (jcs.map (fun jc => rightMult jc.2))) *
        ((min
          (minOfD sizeTMax (jcs.map (fun jc =>
            (⌊max 1 ((leftSize : ℚ) / leftMult jc.1)⌋).toNat)))
          (minOfD sizeTMax (jcs.map (fun jc =>
            (⌊max 1 ((rightSize : ℚ) / rightMult jc.2)⌋).toNat))) : Nat) : ℚ)⌋).toNat
        + 1 := by
  cases jcs with
  | nil => exact absurd rfl hne
  | cons jc0 rest =>
    have h0 := hml jc0 (by simp)
    have h1 := hmr jc0 (by simp)
    rw [getSizeEstimateBeforeLimit, computeSizeEstimateAndMultiplicities]
    simp only [List.map_cons, minOfD]
    rw [foldl_min_init _ (distinct_le_sizeTMax hsl h0.1)]
    rw [foldl_min_init _ (distinct_le_sizeTMax hsr h1.1)]
    rw [foldl_min_init _ h0.2]
    rw [foldl_min_init _ h1.2]

/-- C6 amended-claim witness, at the counterexample's input. -/
theorem sizeEstimate_plus_one_witness :
    (([(0, 0)] : List (Nat × Nat)) ≠ [] ∧ 4 ≤ sizeTMax ∧ 4 ≤ sizeTMax ∧
      (∀ jc ∈ ([(0, 0)] : List (Nat × Nat)),
        1 ≤ unitMult jc.1 ∧ unitMult jc.1 ≤ floatMax) ∧
      (∀ jc ∈ ([(0, 0)] : List (Nat × Nat)),
        1 ≤ unitMult jc.2 ∧ unitMult jc.2 ≤ floatMax)) ∧
    getSizeEstimateBeforeLimit 4 4 unitMult unitMult [(0, 0)] =
      (⌊(minOfD floatMax
            (([(0, 0)] : List (Nat × Nat)).map (fun jc => unitMult jc.1)) *
          minOfD floatMax
            (([(0, 0)] : List (Nat × Nat)).map (fun jc => unitMult jc.2))) *
        ((min
          (minOfD sizeTMax (([(0, 0)] : List (Nat × Nat)).map (fun jc =>
            (⌊max 1 (((4 : Nat) : ℚ) / unitMult jc.1)⌋).toNat)))
          (minOfD sizeTMax (([(0, 0)] : List (Nat × Nat)).map (fun jc =>
            (⌊max 1 (((4 : Nat) : ℚ) / unitMult jc.2)⌋).toNat))) : Nat) :
          ℚ)⌋).toNat + 1 :=
  ⟨⟨by decide, by decide, by decide,
      by norm_num [unitMult, floatMax],
      by norm_num [unitMult, floatMax]⟩,
    sizeEstimate_plus_one (by decide) (by decide) (by decide)
      (by norm_num [unitMult, floatMax])
      (by norm_num [unitMult, floatMax])⟩

/-- Translation of `MultiColumnJoin::getCostEstimate` (MultiColumnJoin.cpp:135-144).
`k` is `_joinColumns.size()`.  Every `size_t` operation wraps modulo `2^64`:
the additions `getSizeEstimateBeforeLimit() + leftSize + rightSize`, the
`costEstimate *= 2`, the subtraction `k - 1`, and the final
`leftCost + rightCost + costEstimate`.  The step
`costEstimate *= (1 + (k-1) * 0.07)` converts to `double`, multiplies, and
assigns back to `size_t`: modelled as `Int.floor`/`Int.toNat` followed by
`% 2^64` (for an in-range value the conversion is plain truncation; out of
range it is undefined behaviour in C++, and the claim's hypotheses keep it
in range).  The double literal `0.07` is modelled as the exact rational
`7/100`. -/
def getCostEstimate (sizeEstimate leftSize rightSize leftCost rightCost
    k : Nat) : Nat :=
  let costEstimate : Nat := (sizeEstimate + leftSize + rightSize) % 2 ^ 64
  let costEstimate : Nat := costEstimate * 2 % 2 ^ 64
  let km1 : Nat := (((k : Int) - 1) % (2 ^ 64 : Int)).toNat
  let costEstimate : Nat :=
    (⌊(costEstimate : ℚ) * (1 + (km1 : ℚ) * (7 / 100))⌋).toNat % 2 ^ 64
  (leftCost + rightCost + costEstimate) % 2 ^ 64

/-- C7.  For at least one join column (so the `size_t` subtraction `k - 1`
does not wrap) and estimates small enough that none of the other `size_t`
operations wraps either, the cost estimate is the children's costs plus
`(ownSize + leftSize + rightSize) * 2 * (1 + 0.07*(k-1))`, truncated to an
integer by the `size_t` assignment. -/
theorem costEstimate_formula {s ls rs lc rc k : Nat} (hk : 1 ≤ k)
    (hk2 : k ≤ 2 ^ 64) (hsum : (s + ls + rs) * 2 < 2 ^ 64)
    (hfin : lc + rc + (⌊(((s + ls + rs) * 2 : Nat) : ℚ) *
      (1 + (7 / 100 : ℚ) * ((k - 1 : Nat) : ℚ))⌋).toNat < 2 ^ 64) :
    getCostEstimate s ls rs lc rc k =
      lc + rc + (⌊(((s + ls + rs) * 2 : Nat) : ℚ) *
        (1 + (7 / 100 : ℚ) * ((k - 1 : Nat) : ℚ))⌋).toNat := by
  have hN2 : (2 ^ 64 : Nat) = 18446744073709551616 := by norm_num
  rw [hN2] at hk2
  have hN : (2 ^ 64 : Int) = 18446744073709551616 := by norm_num
  have hkm : (((k : Int) - 1) % (2 ^ 64 : Int)).toNat = k - 1 := by
    rw [hN]
    omega
  have hle : s + ls + rs ≤ (s + ls + rs) * 2 := by omega
  have h1 : (s + ls + rs) % 2 ^ 64 = s + ls + rs :=
    Nat.mod_eq_of_lt (lt_of_le_of_lt hle hsum)
  simp only [getCostEstimate, hkm, h1]
  have h2 : (s + ls + rs) * 2 % 2 ^ 64 = (s + ls + rs) * 2 :=
    Nat.mod_eq_of_lt hsum
  rw [h2]
  have harg : ((((s + ls + rs) * 2 : Nat)) : ℚ) *
        (1 + (((k - 1 : Nat)) : ℚ) * (7 / 100)) =
      (((s + ls + rs) * 2 : Nat) : ℚ) *
        (1 + (7 / 100 : ℚ) * ((k - 1 : Nat) : ℚ)) := by
    ring
  rw [harg]
  have hflt : (⌊(((s + ls + rs) * 2 : Nat) : ℚ) *
      (1 + (7 / 100 : ℚ) * ((k - 1 : Nat) : ℚ))⌋).toNat < 2 ^ 64 := by
    omega
  rw [Nat.mod_eq_of_lt hflt]
  exact Nat.mod_eq_of_lt hfin

/-- C7 witness: a single join column gives multiplier 1, and small estimates
keep every `size_t` operation in range. -/
theorem costEstimate_formula_witness :
    (1 ≤ 1 ∧ 1 ≤ 2 ^ 64 ∧ (4 + 2 + 3) * 2 < 2 ^ 64 ∧
      10 + 20 + (⌊(((4 + 2 + 3) * 2 : Nat) : ℚ) *
        (1 + (7 / 100 : ℚ) * ((1 - 1 : Nat) : ℚ))⌋).toNat < 2 ^ 64) ∧
      getCostEstimate 4 2 3 10 20 1 =
        10 + 20 + (⌊(((4 + 2 + 3) * 2 : Nat) : ℚ) *
          (1 + (7 / 100 : ℚ) * ((1 - 1 : Nat) : ℚ))⌋).toNat :=
  ⟨⟨le_rfl, by norm_num, by norm_num, by norm_num; decide⟩,
    costEstimate_formula le_rfl (by norm_num) (by norm_num)
      (by norm_num; decide)⟩

/-! ## `TextLimit` -/

/-- Translation of `TextLimit` (engine/TextLimit.h:18-73): the members read by
`knownEmptyResult`. -/
structure TextLimit where
  limit_ : Nat
  child_ : QueryExecutionTree
  textRecordColumn_ : Nat
  entityColumns_ : List Nat
  scoreColumns_ : List Nat
deriving DecidableEq, Repr

/-- Translation of `TextLimit::knownEmptyResult` (engine/TextLimit.h:57-59):
`limit_ == 0 || child_->knownEmptyResult()`. -/
def TextLimit.knownEmptyResult (t : TextLimit) : Bool :=
  t.limit_ == 0 || t.child_.knownEmpty

/-- C10.  `knownEmptyResult` is true iff the limit is 0 or the child's result
is known to be empty; in particular a limit of 0 reports a known-empty
result regardless of the child. -/
theorem textLimit_knownEmptyResult :
    (∀ t : TextLimit, t.knownEmptyResult = true ↔
      (t.limit_ = 0 ∨ t.child_.knownEmpty = true)) ∧
    (∀ (child : QueryExecutionTree) (tc : Nat) (ec sc : List Nat),
      (TextLimit.mk 0 child tc ec sc).knownEmptyResult = true) := by
  constructor
  · intro t
    simp [TextLimit.knownEmptyResult]
  · intro child tc ec sc
    simp [TextLimit.knownEmptyResult]

end QLever
